import Mathlib

/-!
Verification of the year-focus calendar's layout core against its design
notes.  The definitions below are a shallow embedding of
`src/data/events.ts` and `src/components/CalendarMonth.tsx`: pure
TypeScript functions become Lean functions, JS `Date` values are modelled
as (year, 0-indexed month, day-of-month) triples, and `YYYY-MM-DD` date
keys are Lean `String`s compared lexicographically, just as JS compares
them by code units.
-/

namespace YearFocus

/-- Event record, from `src/data/events.ts` (interface `CalendarEvent`).
`end` is a reserved word in Lean, so that field is called `endK` here. -/
structure CalendarEvent where
  id : String
  title : String
  start : String
  endK : String
  color : String
  details : String
deriving DecidableEq, Repr

/-- The static event list of `src/data/events.ts` (`export const events`).
The `details` markdown bodies are elided to their first line: no code path
or claim ever reads `details`, and the field stays present so the record
shape matches the source. -/
def events : List CalendarEvent :=
  [ { id := "misogi-challenge", title := "Misogi Challenge",
      start := "2026-03-01", endK := "2026-06-30",
      color := "0 72% 50%", details := "**100km Monthly Running Target**" },
    { id := "ultra-prep", title := "Ultra Marathon Prep",
      start := "2026-07-01", endK := "2026-09-30",
      color := "200 98% 39%", details := "**Building the Engine**" },
    { id := "first-ultra", title := "First 100km Ultra",
      start := "2026-10-17", endK := "2026-10-17",
      color := "45 93% 47%", details := "**The Main Event**" },
    { id := "recovery-block", title := "Active Recovery Block",
      start := "2026-10-18", endK := "2026-11-15",
      color := "160 60% 45%", details := "**Post-Ultra Recovery**" },
    { id := "year-reflection", title := "Year End Reflection",
      start := "2026-12-20", endK := "2026-12-31",
      color := "270 50% 50%", details := "**Closing the Year**" },
    { id := "base-building", title := "Base Building Phase",
      start := "2026-01-05", endK := "2026-02-28",
      color := "215 24% 40%", details := "**Foundation Work**" },
    { id := "new-year", title := "New Year Commitment",
      start := "2026-01-01", endK := "2026-01-01",
      color := "200 98% 39%", details := "**The Year Begins**" },
    { id := "swim-focus", title := "Swim Focus Week",
      start := "2026-02-09", endK := "2026-02-15",
      color := "190 80% 45%", details := "**Intensive Swim Block**" } ]

/-- `String(n).padStart(2, "0")` for a natural number, as used for the
month and day fields of `formatDateString` (events.ts lines 213-214). -/
def pad2 (n : Nat) : String :=
  if n < 10 then "0" ++ toString n else toString n

/-- `formatDateString(new Date(year, month, day))` (events.ts lines
211-216) for an in-range day of the 0-indexed `month`; the `Date`
constructor does not renormalize such triples, so the formatted key is
built directly from the components. -/
def formatDateString (year : Int) (month day : Nat) : String :=
  toString year ++ "-" ++ pad2 (month + 1) ++ "-" ++ pad2 day

/-- Lexicographic comparison of two character lists: how JS compares
strings (`a <= b`) code unit by code unit, a shorter strict prefix being
smaller. -/
def charsLe : List Char → List Char → Bool
  | [], _ => true
  | _ :: _, [] => false
  | a :: as, b :: bs =>
    if a < b then true else if b < a then false else charsLe as bs

/-- The JS string comparison `a <= b` used on fixed-width date keys. -/
def strLe (a b : String) : Bool :=
  charsLe a.data b.data

/-- The range test `dateStr >= event.start && dateStr <= event.end`
shared (textually inlined in the source) by `getEventsForDate`
(events.ts line 204) and the column scan of `getEventBlocksForWeek`
(CalendarMonth.tsx line 90). -/
def dateInRange (event : CalendarEvent) (dateStr : String) : Bool :=
  strLe event.start dateStr && strLe dateStr event.endK

/-- `getEventsForDate` (events.ts lines 200-206), with the `Date` argument
given as (year, 0-indexed month, day). -/
def getEventsForDate (year : Int) (month day : Nat) : List CalendarEvent :=
  let dateStr := formatDateString year month day
  events.filter fun event => dateInRange event dateStr

/-- `isMultiDayEvent` (events.ts lines 221-223). -/
def isMultiDayEvent (event : CalendarEvent) : Bool :=
  event.start != event.endK

/-- `getEventPosition` (events.ts lines 229-236); the result is one of the
string literals the source returns. -/
def getEventPosition (event : CalendarEvent) (year : Int) (month day : Nat) :
    String :=
  let dateStr := formatDateString year month day
  if event.start == event.endK then "single"
  else if dateStr == event.start then "start"
  else if dateStr == event.endK then "end"
  else "middle"

/-! ### CalendarMonth.tsx: the week event-layout engine -/

/-- `interface EventBlock` (CalendarMonth.tsx lines 22-29).  `startCol`
and `endCol` are 0-6 column positions, `row` the stacking row. -/
structure EventBlock where
  event : CalendarEvent
  startCol : Nat
  endCol : Nat
  row : Nat
  isStart : Bool
  isEnd : Bool
deriving DecidableEq, Repr

/-- One iteration of the column scan of `getEventBlocksForWeek`
(CalendarMonth.tsx lines 82-98).  The state is `none` while
`startCol === -1`, and `some (startCol, isStart, endCol, isEnd)` after
the first in-range column.  Out-of-range indices read as blank cells
(weeks always have length 7). -/
def scanStep (weekDays : List (Option Nat)) (year : Int) (month : Nat)
    (event : CalendarEvent) (st : Option (Nat × Bool × Nat × Bool)) (i : Nat) :
    Option (Nat × Bool × Nat × Bool) :=
  match weekDays.getD i none with
  | none => st
  | some day =>
    let cellDateStr := formatDateString year month day
    if dateInRange event cellDateStr then
      match st with
      | none => some (i, cellDateStr == event.start, i, cellDateStr == event.endK)
      | some (startCol, isStart, _, _) =>
        some (startCol, isStart, i, cellDateStr == event.endK)
    else st

/-- The `for (let i = 0; i < 7; i++)` scan of CalendarMonth.tsx lines
82-98: the week-local span of `event`, or `none` when the event matches
no column (the `startCol === -1` early return at line 100). -/
def scanEvent (weekDays : List (Option Nat)) (year : Int) (month : Nat)
    (event : CalendarEvent) : Option (Nat × Bool × Nat × Bool) :=
  (List.range 7).foldl (scanStep weekDays year month event) none

/-- The column-overlap test `!(b.endCol < startCol || b.startCol > endCol)`
(CalendarMonth.tsx line 107). -/
def overlapsCols (b : EventBlock) (startCol endCol : Nat) : Bool :=
  !(decide (b.endCol < startCol) || decide (b.startCol > endCol))

/-- The `while (usedRows.includes(row)) row++` loop (CalendarMonth.tsx
lines 111-113), with explicit fuel; `usedRows.length + 1` steps always
suffice to leave the loop. -/
def nextFreeRow : List Nat → Nat → Nat → Nat
  | _, row, 0 => row
  | usedRows, row, fuel + 1 =>
    if row ∈ usedRows then nextFreeRow usedRows (row + 1) fuel else row

/-- Row assignment for a candidate span (CalendarMonth.tsx lines 102-113):
collect the rows of already-placed blocks whose column range overlaps
`[startCol, endCol]` and take the smallest free row. -/
def assignRow (blocks : List EventBlock) (startCol endCol : Nat) : Nat :=
  let usedRows := (blocks.filter fun b => overlapsCols b startCol endCol).map
    (fun b => b.row)
  nextFreeRow usedRows 0 (usedRows.length + 1)

/-- The per-event-per-week dedup key `event.id + "-week-" + weekDays[firstValidIdx]`
(CalendarMonth.tsx line 69); `fv` is the day number stored at the first
non-blank cell. -/
def weekKey (event : CalendarEvent) (fv : Nat) : String :=
  event.id ++ "-week-" ++ toString fv

/-- The body of the inner `dayEvents.forEach` (CalendarMonth.tsx lines
67-123): skip an event already processed this week, otherwise mark it
processed, scan its span, and append a block with a greedily assigned
row.  The state is (blocks, processedEvents). -/
def processEvent (weekDays : List (Option Nat)) (year : Int) (month : Nat)
    (fv : Nat) (acc : List EventBlock × List String) (event : CalendarEvent) :
    List EventBlock × List String :=
  let key := weekKey event fv
  if key ∈ acc.2 then acc
  else
    let processed := key :: acc.2
    match scanEvent weekDays year month event with
    | none => (acc.1, processed)
    | some (startCol, isStart, endCol, isEnd) =>
      (acc.1 ++ [⟨event, startCol, endCol, assignRow acc.1 startCol endCol,
                  isStart, isEnd⟩], processed)

/-- One step of the outer `weekDays.forEach` (CalendarMonth.tsx lines
61-124): blank cells are skipped (`if (day === null) return`), otherwise
every event of that day is run through `processEvent`. -/
def processCell (weekDays : List (Option Nat)) (year : Int) (month : Nat)
    (fv : Nat) (acc : List EventBlock × List String) (cell : Option Nat) :
    List EventBlock × List String :=
  match cell with
  | none => acc
  | some day =>
    (getEventsForDate year month day).foldl (processEvent weekDays year month fv)
      acc

/-- `getEventBlocksForWeek` (CalendarMonth.tsx lines 35-130).  The outer
`weekDays.forEach` skips blank cells and runs `processEvent` over that
cell's `getEventsForDate`; the final `blocks.sort((a, b) => a.row - b.row)`
is a stable ascending sort by row, modelled by the (stable) insertion
sort — a stable ascending sort has a unique result, so any stable sort
models `Array.prototype.sort` exactly.  When every cell is blank
(`firstValidIdx === -1`) the empty list is returned.  Dead code of the
source is not modelled: the `weekDates` array (lines 44-49), the
`lastValidIdx` computation (lines 53-56) and the `Date` objects
`eventStart`/`eventEnd` (lines 73-74) are computed there but never read
afterwards. -/
def getEventBlocksForWeek (weekDays : List (Option Nat)) (year : Int)
    (month : Nat) : List EventBlock :=
  match weekDays.findSome? id with
  | none => []
  | some fv =>
    let acc := weekDays.foldl (processCell weekDays year month fv) ([], [])
    acc.1.insertionSort fun a b => a.row ≤ b.row

/-- `getSingleDayEventsForDate` (CalendarMonth.tsx lines 135-137). -/
def getSingleDayEventsForDate (year : Int) (month day : Nat) :
    List CalendarEvent :=
  (getEventsForDate year month day).filter fun event => event.start == event.endK

/-! ### CalendarMonth.tsx: the month grid builder

`CalendarMonth` reads the month's shape off two JS `Date`s:
`new Date(year, month + 1, 0).getDate()` (the day count) and
`new Date(year, month, 1).getDay()` (the weekday of the 1st, Sunday = 0).
Both are modelled by proleptic-Gregorian civil-calendar arithmetic, which
is what the JS `Date` implements for local calendar dates. -/

/-- Gregorian leap-year rule, as implemented by the JS `Date`. -/
def isLeapYear (year : Int) : Bool :=
  year % 4 == 0 && (year % 100 != 0 || year % 400 == 0)

/-- `new Date(year, month + 1, 0).getDate()` for a 0-indexed `month`
(CalendarMonth.tsx lines 142-143): the day count of the month. -/
def daysInMonth (year : Int) (month : Nat) : Nat :=
  match month with
  | 0 => 31
  | 1 => if isLeapYear year then 29 else 28
  | 2 => 31
  | 3 => 30
  | 4 => 31
  | 5 => 30
  | 6 => 31
  | 7 => 31
  | 8 => 30
  | 9 => 31
  | 10 => 30
  | _ => 31

/-- Days from 1970-01-01 to civil (year, 0-indexed month, day), Howard
Hinnant's `days_from_civil`: the day number underlying the JS `Date`. -/
def daysFromCivil (year : Int) (month day : Nat) : Int :=
  let m : Int := (month : Int) + 1
  let y : Int := if m ≤ 2 then year - 1 else year
  let era : Int := Int.fdiv y 400
  let yoe : Int := y - era * 400
  let mp : Int := (m + 9) % 12
  let doy : Int := (153 * mp + 2) / 5 + ((day : Int) - 1)
  let doe : Int := yoe * 365 + yoe / 4 - yoe / 100 + doy
  era * 146097 + doe - 719468

/-- `new Date(year, month, day).getDay()`: weekday with Sunday = 0
(1970-01-01 was a Thursday, weekday 4). -/
def getDay (year : Int) (month day : Nat) : Nat :=
  ((daysFromCivil year month day + 4) % 7).toNat

/-- The flat day-cell array `days` of `CalendarMonth` (CalendarMonth.tsx
lines 141-165): `startingDayOfWeek` leading blanks, the day numbers
`1..daysInMonth`, then blanks until the length is a multiple of 7 (the
closed form of the `while (days.length % 7 !== 0)` loop). -/
def monthDays (year : Int) (month : Nat) : List (Option Nat) :=
  let dayOfWeek := getDay year month 1
  let startingDayOfWeek := if dayOfWeek = 0 then 6 else dayOfWeek - 1
  let base : List (Option Nat) :=
    List.replicate startingDayOfWeek none ++
      (List.range' 1 (daysInMonth year month)).map some
  base ++ List.replicate ((7 - base.length % 7) % 7) none

/-- The grouping into weeks (CalendarMonth.tsx lines 168-171):
`days.slice(i, i + 7)` for `i = 0, 7, 14, ...`.  The recursion is fueled
by the list length, keeping it structural (the fuel never runs out since
each step consumes at least one element). -/
def chunksOf7Aux : Nat → List (Option Nat) → List (List (Option Nat))
  | _, [] => []
  | 0, _ :: _ => []
  | fuel + 1, x :: xs => (x :: xs).take 7 :: chunksOf7Aux fuel ((x :: xs).drop 7)

/-- The week grouping, with the fuel set to the list length. -/
def chunksOf7 (l : List (Option Nat)) : List (List (Option Nat)) :=
  chunksOf7Aux l.length l

/-- The `weeks` array of `CalendarMonth`. -/
def monthWeeks (year : Int) (month : Nat) : List (List (Option Nat)) :=
  chunksOf7 (monthDays year month)

/-! ### Derived notions used in the statements and proofs -/

/-- Whether column `i` of the week is a non-blank cell whose date key lies
in `[event.start, event.end]` — the per-column condition of both the
column scan and `getEventsForDate`. -/
def matchesAt (weekDays : List (Option Nat)) (year : Int) (month : Nat)
    (event : CalendarEvent) (i : Nat) : Bool :=
  match weekDays.getD i none with
  | none => false
  | some day => dateInRange event (formatDateString year month day)

/-- The date key of column `i` of the week (`none` for a blank cell). -/
def cellKeyAt (weekDays : List (Option Nat)) (year : Int) (month : Nat)
    (i : Nat) : Option String :=
  (weekDays.getD i none).map (formatDateString year month)

/-- Two blocks either do not overlap in columns or sit on different rows:
the collision-freedom relation of the row packing. -/
def BlockCompat (b1 b2 : EventBlock) : Prop :=
  overlapsCols b1 b2.startCol b2.endCol = true → b1.row ≠ b2.row

/-- The set of row values used by a list of blocks. -/
def rowSet (blocks : List EventBlock) : Finset Nat :=
  (blocks.map fun b => b.row).toFinset

/-- The number of distinct row values among the blocks. -/
def distinctRowCount (blocks : List EventBlock) : Nat :=
  (rowSet blocks).card

/-- How many blocks' column ranges `[startCol, endCol]` contain column `c`. -/
def columnCount (blocks : List EventBlock) (c : Nat) : Nat :=
  (blocks.filter fun b => decide (b.startCol ≤ c) && decide (c ≤ b.endCol)).length

/-- The maximum, over columns 0..6, of `columnCount`. -/
def maxColumnCount (blocks : List EventBlock) : Nat :=
  ((List.range 7).map (columnCount blocks)).foldr max 0

/-! ### Basic facts about the event store -/

/-- `charsLe` agrees with the lexicographic order on lists of
characters. -/
lemma charsLe_iff : ∀ as bs : List Char, charsLe as bs = true ↔ ¬ List.lt bs as := by
  intro as
  induction as with
  | nil =>
    intro bs
    constructor
    · intro _ h
      cases h
    · intro _
      rfl
  | cons a as ih =>
    intro bs
    cases bs with
    | nil =>
      constructor
      · intro h
        simp [charsLe] at h
      · intro h
        exact absurd (List.lt.nil _ _) h
    | cons b bs =>
      simp only [charsLe]
      by_cases hab : a < b
      · rw [if_pos hab]
        simp only [true_iff]
        intro h
        cases h with
        | head _ _ hba => exact absurd hab (lt_asymm hba)
        | tail h1 h2 h3 => exact h2 hab
      · rw [if_neg hab]
        by_cases hba : b < a
        · rw [if_pos hba]
          constructor
          · intro h
            simp at h
          · intro h
            exact absurd (List.lt.head _ _ hba) h
        · rw [if_neg hba]
          rw [ih bs]
          constructor
          · intro h hlt
            cases hlt with
            | head _ _ hle => exact hba hle
            | tail h1 h2 h3 => exact h h3
          · intro h hlt
            exact h (List.lt.tail hba hab hlt)

/-- `strLe` is the string order used throughout Mathlib (both are the
lexicographic order on the underlying characters). -/
lemma strLe_iff_le {a b : String} : strLe a b = true ↔ a ≤ b := by
  rw [strLe, charsLe_iff, String.le_iff_toList_le, ← not_lt]
  exact not_congr (List.lt_iff_lex_lt _ _)

lemma dateInRange_iff {e : CalendarEvent} {k : String} :
    dateInRange e k = true ↔ e.start ≤ k ∧ k ≤ e.endK := by
  rw [dateInRange, Bool.and_eq_true, strLe_iff_le, strLe_iff_le]

lemma mem_getEventsForDate {e : CalendarEvent} {y : Int} {m d : Nat} :
    e ∈ getEventsForDate y m d ↔
      e ∈ events ∧ dateInRange e (formatDateString y m d) = true := by
  simp [getEventsForDate, List.mem_filter]

lemma events_id_inj : ∀ e1 ∈ events, ∀ e2 ∈ events, e1.id = e2.id → e1 = e2 := by
  decide

lemma weekKey_inj {fv : Nat} :
    ∀ e1 ∈ events, ∀ e2 ∈ events, weekKey e1 fv = weekKey e2 fv → e1 = e2 := by
  intro e1 h1 e2 h2 h
  apply events_id_inj e1 h1 e2 h2
  have hd := congrArg String.data h
  simp only [weekKey, String.data_append] at hd
  exact String.ext (List.append_cancel_right (List.append_cancel_right hd))

/-! ### The greedy row assignment -/

lemma countP_lt_of_mem {used : List Nat} {r : Nat} (h : r ∈ used) :
    used.countP (fun x => decide (r + 1 ≤ x)) <
      used.countP (fun x => decide (r ≤ x)) := by
  induction used with
  | nil => simp at h
  | cons a t ih =>
    rcases List.mem_cons.mp h with h | h
    · subst h
      have hle : t.countP (fun x => decide (r + 1 ≤ x)) ≤
          t.countP (fun x => decide (r ≤ x)) :=
        List.countP_mono_left (by intro x _ hx; simp at hx ⊢; omega)
      rw [List.countP_cons, List.countP_cons,
        if_neg (by simp only [decide_eq_true_eq]; omega),
        if_pos (by simp only [decide_eq_true_eq]; omega)]
      omega
    · have := ih h
      rw [List.countP_cons, List.countP_cons]
      by_cases ha : r + 1 ≤ a
      · rw [if_pos (by simpa using ha),
          if_pos (by simp only [decide_eq_true_eq]; omega)]
        omega
      · by_cases hb : r ≤ a
        · rw [if_neg (by simpa using ha), if_pos (by simpa using hb)]; omega
        · rw [if_neg (by simpa using ha), if_neg (by simpa using hb)]; omega

/-- The while loop finds the smallest row not in `usedRows`, given enough
fuel: the result is free, and everything below it is occupied. -/
lemma nextFreeRow_spec :
    ∀ (fuel : Nat) (used : List Nat) (row : Nat),
      used.countP (fun x => decide (row ≤ x)) < fuel →
      nextFreeRow used row fuel ∉ used ∧
        ∀ k, row ≤ k → k < nextFreeRow used row fuel → k ∈ used := by
  intro fuel
  induction fuel with
  | zero => intro used row h; exact absurd h (Nat.not_lt_zero _)
  | succ n ih =>
    intro used row h
    by_cases hr : row ∈ used
    · rw [show nextFreeRow used row (n + 1) =
          (if row ∈ used then nextFreeRow used (row + 1) n else row) from rfl,
        if_pos hr]
      have hlt := countP_lt_of_mem hr
      obtain ⟨h1, h2⟩ := ih used (row + 1) (by omega)
      refine ⟨h1, fun k hk1 hk2 => ?_⟩
      rcases Nat.eq_or_lt_of_le hk1 with hk | hk
      · exact hk ▸ hr
      · exact h2 k hk hk2
    · rw [show nextFreeRow used row (n + 1) =
          (if row ∈ used then nextFreeRow used (row + 1) n else row) from rfl,
        if_neg hr]
      exact ⟨hr, fun k hk1 hk2 => absurd hk2 (by omega)⟩

/-- Specification of `assignRow`: the assigned row differs from the row of
every already-placed overlapping block, and every smaller row is taken by
some overlapping block. -/
lemma assignRow_spec (blocks : List EventBlock) (s t : Nat) :
    (∀ b ∈ blocks, overlapsCols b s t = true → b.row ≠ assignRow blocks s t) ∧
      ∀ r < assignRow blocks s t,
        ∃ b ∈ blocks, overlapsCols b s t = true ∧ b.row = r := by
  have heq : assignRow blocks s t =
      nextFreeRow ((blocks.filter fun b => overlapsCols b s t).map fun b => b.row)
        0 (((blocks.filter fun b => overlapsCols b s t).map fun b => b.row).length + 1) :=
    rfl
  obtain ⟨h1, h2⟩ := nextFreeRow_spec
    (((blocks.filter fun b => overlapsCols b s t).map fun b => b.row).length + 1)
    ((blocks.filter fun b => overlapsCols b s t).map fun b => b.row) 0
    (Nat.lt_succ_of_le (List.countP_le_length _))
  constructor
  · intro b hb hov hbr
    apply h1
    rw [← heq, ← hbr]
    exact List.mem_map_of_mem _ (List.mem_filter.mpr ⟨hb, hov⟩)
  · intro r hr
    rw [heq] at hr
    obtain ⟨b, hbf, hbr⟩ := List.mem_map.mp (h2 r (Nat.zero_le r) hr)
    obtain ⟨hb, hov⟩ := List.mem_filter.mp hbf
    exact ⟨b, hb, hov, hbr⟩

/-! ### Characterization of the column scan -/

/-- What the scan state means after scanning columns `0..n-1`: `none` when
no column matched so far; otherwise `startCol` is the first matching
column, `endCol` the last one, and the flags compare the keys at those
columns with the event's boundary keys. -/
def scanSpecAt (w : List (Option Nat)) (y : Int) (m : Nat) (e : CalendarEvent)
    (n : Nat) : Option (Nat × Bool × Nat × Bool) → Prop
  | none => ∀ i, i < n → matchesAt w y m e i = false
  | some (s, iS, t, iE) =>
      s ≤ t ∧ t < n ∧ matchesAt w y m e s = true ∧ matchesAt w y m e t = true ∧
        (∀ i, i < s → matchesAt w y m e i = false) ∧
        (∀ i, t < i → i < n → matchesAt w y m e i = false) ∧
        (∃ k, cellKeyAt w y m s = some k ∧ iS = (k == e.start)) ∧
        ∃ k, cellKeyAt w y m t = some k ∧ iE = (k == e.endK)

lemma scanAux_spec (w : List (Option Nat)) (y : Int) (m : Nat)
    (e : CalendarEvent) :
    ∀ n, scanSpecAt w y m e n ((List.range n).foldl (scanStep w y m e) none) := by
  intro n
  induction n with
  | zero =>
    simp only [List.range_zero, List.foldl_nil, scanSpecAt]
    omega
  | succ k ih =>
    rw [List.range_succ, List.foldl_append, List.foldl_cons, List.foldl_nil]
    rcases hst : (List.range k).foldl (scanStep w y m e) none with _ | ⟨s, iS, t, iE⟩ <;>
      rw [hst] at ih
    · rcases hcell : w.getD k none with _ | day
      · simp only [scanStep, hcell, scanSpecAt] at ih ⊢
        intro i hi
        rcases Nat.lt_succ_iff_lt_or_eq.mp hi with hik | rfl
        · exact ih i hik
        · simp only [matchesAt, hcell]
      · by_cases hin : dateInRange e (formatDateString y m day) = true
        · simp only [scanStep, hcell, hin, if_pos, scanSpecAt] at ih ⊢
          refine ⟨Nat.le_refl k, Nat.lt_succ_self k, ?_, ?_, ?_, ?_, ?_, ?_⟩
          · simp only [matchesAt, hcell, hin]
          · simp only [matchesAt, hcell, hin]
          · exact fun i hik => ih i hik
          · intro i h1 h2; omega
          · exact ⟨formatDateString y m day, by simp only [cellKeyAt, hcell, Option.map_some'], rfl⟩
          · exact ⟨formatDateString y m day, by simp only [cellKeyAt, hcell, Option.map_some'], rfl⟩
        · simp only [scanStep, hcell, hin, if_neg, Bool.not_eq_true, scanSpecAt]
          simp only [Bool.not_eq_true] at hin
          simp only [scanSpecAt] at ih
          intro i hi
          rcases Nat.lt_succ_iff_lt_or_eq.mp hi with hik | rfl
          · exact ih i hik
          · simp only [matchesAt, hcell, hin]
    · obtain ⟨hst1, hst2, hst3, hst4, hst5, hst6, hst7, hst8⟩ := ih
      rcases hcell : w.getD k none with _ | day
      · simp only [scanStep, hcell, scanSpecAt]
        refine ⟨hst1, by omega, hst3, hst4, hst5, ?_, hst7, hst8⟩
        intro i h1 h2
        rcases Nat.lt_succ_iff_lt_or_eq.mp h2 with hik | rfl
        · exact hst6 i h1 hik
        · simp only [matchesAt, hcell]
      · by_cases hin : dateInRange e (formatDateString y m day) = true
        · simp only [scanStep, hcell, hin, if_pos, scanSpecAt]
          refine ⟨by omega, Nat.lt_succ_self k, hst3, ?_, hst5, ?_, hst7, ?_⟩
          · simp only [matchesAt, hcell, hin]
          · intro i h1 h2; omega
          · exact ⟨formatDateString y m day, by simp only [cellKeyAt, hcell, Option.map_some'], rfl⟩
        · simp only [scanStep, hcell, hin, if_neg, Bool.not_eq_true, scanSpecAt]
          simp only [Bool.not_eq_true] at hin
          refine ⟨hst1, by omega, hst3, hst4, hst5, ?_, hst7, hst8⟩
          intro i h1 h2
          rcases Nat.lt_succ_iff_lt_or_eq.mp h2 with hik | rfl
          · exact hst6 i h1 hik
          · simp only [matchesAt, hcell, hin]

/-- The scan of columns 0..6, specified. -/
lemma scanEvent_spec (w : List (Option Nat)) (y : Int) (m : Nat)
    (e : CalendarEvent) : scanSpecAt w y m e 7 (scanEvent w y m e) :=
  scanAux_spec w y m e 7

/-- A match in columns 0..6 forces the scan to produce a span. -/
lemma scanEvent_isSome {w : List (Option Nat)} {y : Int} {m : Nat}
    {e : CalendarEvent} {i : Nat} (hi : i < 7)
    (hm : matchesAt w y m e i = true) :
    ∃ s iS t iE, scanEvent w y m e = some (s, iS, t, iE) := by
  have hspec := scanEvent_spec w y m e
  rcases h : scanEvent w y m e with _ | ⟨s, iS, t, iE⟩
  · rw [h] at hspec
    simp only [scanSpecAt] at hspec
    rw [hspec i hi] at hm
    exact absurd hm (by simp)
  · exact ⟨s, iS, t, iE, rfl⟩

/-- Columns at or beyond the list's length never match. -/
lemma matchesAt_of_le_length {w : List (Option Nat)} {y : Int} {m : Nat}
    {e : CalendarEvent} {i : Nat} (h : w.length ≤ i) :
    matchesAt w y m e i = false := by
  simp only [matchesAt]
  rw [List.getD_eq_default _ _ h]

/-! ### The layout invariant, carried through the week fold -/

lemma overlapsCols_iff {b : EventBlock} {s t : Nat} :
    overlapsCols b s t = true ↔ s ≤ b.endCol ∧ b.startCol ≤ t := by
  simp only [overlapsCols, Bool.not_eq_eq_eq_not, Bool.not_true, Bool.or_eq_false_iff,
    decide_eq_false_iff_not]
  omega

lemma blockCompat_symm {b1 b2 : EventBlock} (h : BlockCompat b1 b2) :
    BlockCompat b2 b1 := by
  intro hov hrow
  have hov' : overlapsCols b1 b2.startCol b2.endCol = true := by
    rw [overlapsCols_iff] at hov ⊢
    omega
  exact h hov' hrow.symm

/-- Invariant of the accumulated block list: rows are collision-free,
rows below any block's row are occupied by blocks covering that block's
start column, and every block records its event's scan result. -/
structure LayoutInv (w : List (Option Nat)) (y : Int) (m : Nat)
    (B : List EventBlock) : Prop where
  pairwise : B.Pairwise BlockCompat
  closed : ∀ b ∈ B, ∀ r < b.row,
    ∃ b' ∈ B, b'.row = r ∧ b'.startCol ≤ b.startCol ∧ b.startCol ≤ b'.endCol
  scans : ∀ b ∈ B, b.event ∈ events ∧
    scanEvent w y m b.event = some (b.startCol, b.isStart, b.endCol, b.isEnd)

/-- Every key in the processed set comes from a match below column `n`. -/
def KeysSub (w : List (Option Nat)) (y : Int) (m : Nat) (fv n : Nat)
    (P : List String) : Prop :=
  ∀ e ∈ events, weekKey e fv ∈ P → ∃ i < n, matchesAt w y m e i = true

/-- Every event matching below column `n` is already in the processed set. -/
def KeysSup (w : List (Option Nat)) (y : Int) (m : Nat) (fv n : Nat)
    (P : List String) : Prop :=
  ∀ e ∈ events, (∃ i < n, matchesAt w y m e i = true) → weekKey e fv ∈ P

/-- Every processed event with a non-empty scan has its block in the list. -/
def BlocksDone (w : List (Option Nat)) (y : Int) (m : Nat) (fv : Nat)
    (B : List EventBlock) (P : List String) : Prop :=
  ∀ e ∈ events, weekKey e fv ∈ P →
    ∀ s iS t iE, scanEvent w y m e = some (s, iS, t, iE) →
      ∃ r, (⟨e, s, t, r, iS, iE⟩ : EventBlock) ∈ B

/-- All placed blocks start at or before column `n`. -/
def StartLe (n : Nat) (B : List EventBlock) : Prop :=
  ∀ b ∈ B, b.startCol ≤ n

/-- One `processEvent` step at column `ci` preserves the invariants. -/
lemma processEvent_inv {w : List (Option Nat)} {y : Int} {m : Nat} {fv ci : Nat}
    {B : List EventBlock} {P : List String} {e : CalendarEvent}
    (he : e ∈ events) (hm : matchesAt w y m e ci = true)
    (hL : LayoutInv w y m B) (hS : StartLe ci B)
    (hsub : KeysSub w y m fv (ci + 1) P) (hsup : KeysSup w y m fv ci P)
    (hdone : BlocksDone w y m fv B P) :
    LayoutInv w y m (processEvent w y m fv (B, P) e).1 ∧
      StartLe ci (processEvent w y m fv (B, P) e).1 ∧
      KeysSub w y m fv (ci + 1) (processEvent w y m fv (B, P) e).2 ∧
      KeysSup w y m fv ci (processEvent w y m fv (B, P) e).2 ∧
      BlocksDone w y m fv (processEvent w y m fv (B, P) e).1
        (processEvent w y m fv (B, P) e).2 ∧
      (∀ x ∈ P, x ∈ (processEvent w y m fv (B, P) e).2) ∧
      weekKey e fv ∈ (processEvent w y m fv (B, P) e).2 := by
  by_cases hkey : weekKey e fv ∈ P
  · have hres : processEvent w y m fv (B, P) e = (B, P) := by
      simp only [processEvent]
      rw [if_pos hkey]
    rw [hres]
    exact ⟨hL, hS, hsub, hsup, hdone, fun x hx => hx, hkey⟩
  · have hnomatch : ∀ i, i < ci → matchesAt w y m e i = false := by
      intro i hi
      by_contra hcon
      rw [Bool.not_eq_false] at hcon
      exact hkey (hsup e he ⟨i, hi, hcon⟩)
    rcases hscan : scanEvent w y m e with _ | ⟨s, iS, t, iE⟩
    · have hres : processEvent w y m fv (B, P) e = (B, weekKey e fv :: P) := by
        simp only [processEvent, hscan]
        rw [if_neg hkey]
      rw [hres]
      refine ⟨hL, hS, ?_, ?_, ?_, ?_, ?_⟩
      · intro e' he' hk
        rcases List.mem_cons.mp hk with hk | hk
        · have : e' = e := weekKey_inj e' he' e he hk
          exact ⟨ci, Nat.lt_succ_self ci, this ▸ hm⟩
        · exact hsub e' he' hk
      · exact fun e' he' h => List.mem_cons_of_mem _ (hsup e' he' h)
      · intro e' he' hk s' iS' t' iE' hscan'
        rcases List.mem_cons.mp hk with hk | hk
        · have : e' = e := weekKey_inj e' he' e he hk
          rw [this, hscan] at hscan'
          exact absurd hscan' (by simp)
        · exact hdone e' he' hk s' iS' t' iE' hscan'
      · exact fun x hx => List.mem_cons_of_mem _ hx
      · exact List.mem_cons_self _ _
    · have hspec := scanEvent_spec w y m e
      rw [hscan] at hspec
      obtain ⟨hs1, hs2, hs3, hs4, hs5, hs6, hs7, hs8⟩ := hspec
      have hci7 : ci < 7 := by
        by_contra hcon
        have : matchesAt w y m e s = false := hnomatch s (by omega)
        rw [this] at hs3
        exact absurd hs3 (by simp)
      have hsci : s = ci := by
        rcases Nat.lt_trichotomy s ci with h | h | h
        · rw [hnomatch s h] at hs3
          exact absurd hs3 (by simp)
        · exact h
        · rw [hs5 ci h] at hm
          exact absurd hm (by simp)
      have hres : processEvent w y m fv (B, P) e =
          (B ++ [⟨e, s, t, assignRow B s t, iS, iE⟩], weekKey e fv :: P) := by
        simp only [processEvent, hscan]
        rw [if_neg hkey]
      rw [hres]
      obtain ⟨har1, har2⟩ := assignRow_spec B s t
      refine ⟨?_, ?_, ?_, ?_, ?_, ?_, ?_⟩
      · refine ⟨?_, ?_, ?_⟩
        · rw [List.pairwise_append]
          refine ⟨hL.pairwise, List.pairwise_singleton _ _, ?_⟩
          intro b hb b' hb'
          rw [List.mem_singleton] at hb'
          subst hb'
          exact fun hov => har1 b hb hov
        · intro b hb r hr
          rcases List.mem_append.mp hb with hb | hb
          · obtain ⟨b', hb', hprop⟩ := hL.closed b hb r hr
            exact ⟨b', List.mem_append_left _ hb', hprop⟩
          · rw [List.mem_singleton] at hb
            subst hb
            obtain ⟨b', hb', hov, hrow⟩ := har2 r hr
            refine ⟨b', List.mem_append_left _ hb', hrow, ?_, ?_⟩
            · calc b'.startCol ≤ ci := hS b' hb'
                _ = s := hsci.symm
            · exact (overlapsCols_iff.mp hov).1
        · intro b hb
          rcases List.mem_append.mp hb with hb | hb
          · exact hL.scans b hb
          · rw [List.mem_singleton] at hb
            subst hb
            exact ⟨he, hscan⟩
      · intro b hb
        rcases List.mem_append.mp hb with hb | hb
        · exact hS b hb
        · rw [List.mem_singleton] at hb
          subst hb
          exact Nat.le_of_eq hsci
      · intro e' he' hk
        rcases List.mem_cons.mp hk with hk | hk
        · have : e' = e := weekKey_inj e' he' e he hk
          exact ⟨ci, Nat.lt_succ_self ci, this ▸ hm⟩
        · exact hsub e' he' hk
      · exact fun e' he' h => List.mem_cons_of_mem _ (hsup e' he' h)
      · intro e' he' hk s' iS' t' iE' hscan'
        rcases List.mem_cons.mp hk with hk | hk
        · have heq : e' = e := weekKey_inj e' he' e he hk
          rw [heq, hscan] at hscan'
          simp only [Option.some.injEq, Prod.mk.injEq] at hscan'
          obtain ⟨h1, h2, h3, h4⟩ := hscan'
          subst h1; subst h2; subst h3; subst h4; subst heq
          exact ⟨assignRow B s t,
            List.mem_append_right _ (List.mem_singleton_self _)⟩
        · obtain ⟨r, hr⟩ := hdone e' he' hk s' iS' t' iE' hscan'
          exact ⟨r, List.mem_append_left _ hr⟩
      · exact fun x hx => List.mem_cons_of_mem _ hx
      · exact List.mem_cons_self _ _

/-- Folding `processEvent` over the events of the cell at column `ci`
preserves the invariants, and afterwards every event of the list is
marked processed. -/
lemma foldl_processEvent_inv {w : List (Option Nat)} {y : Int} {m : Nat}
    {fv ci : Nat} :
    ∀ (L : List CalendarEvent) (st : List EventBlock × List String),
      (∀ e ∈ L, e ∈ events ∧ matchesAt w y m e ci = true) →
      LayoutInv w y m st.1 → StartLe ci st.1 → KeysSub w y m fv (ci + 1) st.2 →
      KeysSup w y m fv ci st.2 → BlocksDone w y m fv st.1 st.2 →
      LayoutInv w y m (L.foldl (processEvent w y m fv) st).1 ∧
        StartLe ci (L.foldl (processEvent w y m fv) st).1 ∧
        KeysSub w y m fv (ci + 1) (L.foldl (processEvent w y m fv) st).2 ∧
        KeysSup w y m fv ci (L.foldl (processEvent w y m fv) st).2 ∧
        BlocksDone w y m fv (L.foldl (processEvent w y m fv) st).1
          (L.foldl (processEvent w y m fv) st).2 ∧
        (∀ x ∈ st.2, x ∈ (L.foldl (processEvent w y m fv) st).2) ∧
        ∀ e ∈ L, weekKey e fv ∈ (L.foldl (processEvent w y m fv) st).2 := by
  intro L
  induction L with
  | nil =>
    intro st _ hL hS hsub hsup hdone
    exact ⟨hL, hS, hsub, hsup, hdone, fun x hx => hx, by simp⟩
  | cons e L ih =>
    intro st hall hL hS hsub hsup hdone
    obtain ⟨he, hm⟩ := hall e (List.mem_cons_self _ _)
    obtain ⟨hL1, hS1, hsub1, hsup1, hdone1, hmono1, hkey1⟩ :=
      @processEvent_inv w y m fv ci st.1 st.2 e he hm hL hS hsub hsup hdone
    rw [List.foldl_cons]
    obtain ⟨hL2, hS2, hsub2, hsup2, hdone2, hmono2, hrest2⟩ :=
      ih (processEvent w y m fv st e)
        (fun e' he' => hall e' (List.mem_cons_of_mem _ he')) hL1 hS1 hsub1
        hsup1 hdone1
    refine ⟨hL2, hS2, hsub2, hsup2, hdone2, ?_, ?_⟩
    · exact fun x hx => hmono2 x (hmono1 x hx)
    · intro e' he'
      rcases List.mem_cons.mp he' with he' | he'
      · subst he'
        exact hmono2 _ hkey1
      · exact hrest2 e' he'

/-- Folding `processCell` over the remaining cells of the week preserves
the invariants, advancing the column bound by one per cell. -/
lemma foldl_processCell_inv {w : List (Option Nat)} {y : Int} {m : Nat}
    {fv : Nat} :
    ∀ (rest : List (Option Nat)) (ci : Nat) (st : List EventBlock × List String),
      w.drop ci = rest →
      LayoutInv w y m st.1 → StartLe ci st.1 → KeysSub w y m fv ci st.2 →
      KeysSup w y m fv ci st.2 → BlocksDone w y m fv st.1 st.2 →
      LayoutInv w y m (rest.foldl (processCell w y m fv) st).1 ∧
        StartLe (ci + rest.length) (rest.foldl (processCell w y m fv) st).1 ∧
        KeysSub w y m fv (ci + rest.length)
          (rest.foldl (processCell w y m fv) st).2 ∧
        KeysSup w y m fv (ci + rest.length)
          (rest.foldl (processCell w y m fv) st).2 ∧
        BlocksDone w y m fv (rest.foldl (processCell w y m fv) st).1
          (rest.foldl (processCell w y m fv) st).2 := by
  intro rest
  induction rest with
  | nil =>
    intro ci st _ hL hS hsub hsup hdone
    simpa using ⟨hL, hS, hsub, hsup, hdone⟩
  | cons cell rest ih =>
    intro ci st hdrop hL hS hsub hsup hdone
    have hci : w.getD ci none = cell := by
      have h0 : w[ci]? = some cell := by
        have h := List.getElem?_drop w ci 0
        rw [hdrop] at h
        simpa using h.symm
      simp [List.getD_eq_getElem?_getD, h0]
    have hdrop' : w.drop (ci + 1) = rest := by
      have h : (w.drop ci).drop 1 = w.drop (ci + 1) := List.drop_drop 1 ci w
      rw [hdrop, List.drop_one, List.tail_cons] at h
      exact h.symm
    have hlen : ci + (cell :: rest).length = (ci + 1) + rest.length := by
      simp [List.length_cons]
      omega
    rw [List.foldl_cons, hlen]
    rcases cell with _ | day
    · have hres : processCell w y m fv st none = st := rfl
      rw [hres]
      refine ih (ci + 1) st hdrop' hL ?_ ?_ ?_ hdone
      · exact fun b hb => Nat.le_succ_of_le (hS b hb)
      · intro e he hk
        obtain ⟨i, hi, hmatch⟩ := hsub e he hk
        exact ⟨i, by omega, hmatch⟩
      · intro e he ⟨i, hi, hmatch⟩
        rcases Nat.lt_succ_iff_lt_or_eq.mp hi with hik | rfl
        · exact hsup e he ⟨i, hik, hmatch⟩
        · rw [matchesAt, hci] at hmatch
          exact absurd hmatch (by simp)
    · have hres : processCell w y m fv st (some day) =
          (getEventsForDate y m day).foldl (processEvent w y m fv) st := rfl
      rw [hres]
      have hall : ∀ e ∈ getEventsForDate y m day,
          e ∈ events ∧ matchesAt w y m e ci = true := by
        intro e he
        obtain ⟨he1, he2⟩ := mem_getEventsForDate.mp he
        refine ⟨he1, ?_⟩
        rw [matchesAt, hci]
        exact he2
      obtain ⟨hL1, hS1, hsub1, hsup1, hdone1, hmono1, hproc1⟩ :=
        foldl_processEvent_inv (getEventsForDate y m day) st hall hL hS
          (fun e he hk => by
            obtain ⟨i, hi, hmatch⟩ := hsub e he hk
            exact ⟨i, by omega, hmatch⟩)
          hsup hdone
      refine ih (ci + 1) _ hdrop' hL1 ?_ hsub1 ?_ hdone1
      · exact fun b hb => Nat.le_succ_of_le (hS1 b hb)
      · intro e he ⟨i, hi, hmatch⟩
        rcases Nat.lt_succ_iff_lt_or_eq.mp hi with hik | rfl
        · exact hmono1 _ (hsup e he ⟨i, hik, hmatch⟩)
        · rw [matchesAt, hci] at hmatch
          exact hproc1 e (mem_getEventsForDate.mpr ⟨he, hmatch⟩)

/-- The accumulated state of `getEventBlocksForWeek` over the whole week,
specified. -/
lemma week_acc_inv (w : List (Option Nat)) (y : Int) (m : Nat) (fv : Nat) :
    LayoutInv w y m (w.foldl (processCell w y m fv) ([], [])).1 ∧
      KeysSub w y m fv w.length (w.foldl (processCell w y m fv) ([], [])).2 ∧
      KeysSup w y m fv w.length (w.foldl (processCell w y m fv) ([], [])).2 ∧
      BlocksDone w y m fv (w.foldl (processCell w y m fv) ([], [])).1
        (w.foldl (processCell w y m fv) ([], [])).2 := by
  have hinit1 : LayoutInv w y m ([] : List EventBlock) :=
    ⟨List.Pairwise.nil, by intro b hb; simp at hb, by intro b hb; simp at hb⟩
  have h := @foldl_processCell_inv w y m fv w 0 ([], []) (by simp) hinit1
    (by intro b hb; simp at hb) (by intro e _ hk; simp at hk)
    (by intro e _ h; omega) (by intro e _ hk; simp at hk)
  rw [Nat.zero_add] at h
  exact ⟨h.1, h.2.2.1, h.2.2.2.1, h.2.2.2.2⟩

/-- The layout invariants, transferred through the final sort to the
output of `getEventBlocksForWeek`. -/
lemma blocks_inv (w : List (Option Nat)) (y : Int) (m : Nat) :
    (getEventBlocksForWeek w y m).Pairwise BlockCompat ∧
      (∀ b ∈ getEventBlocksForWeek w y m, ∀ r < b.row,
        ∃ b' ∈ getEventBlocksForWeek w y m,
          b'.row = r ∧ b'.startCol ≤ b.startCol ∧ b.startCol ≤ b'.endCol) ∧
      ∀ b ∈ getEventBlocksForWeek w y m, b.event ∈ events ∧
        scanEvent w y m b.event =
          some (b.startCol, b.isStart, b.endCol, b.isEnd) := by
  rcases hfv : w.findSome? id with _ | fv
  · have hres : getEventBlocksForWeek w y m = [] := by
      simp only [getEventBlocksForWeek, hfv]
    rw [hres]
    exact ⟨List.Pairwise.nil, by intro b hb; simp at hb,
      by intro b hb; simp at hb⟩
  · have hres : getEventBlocksForWeek w y m =
        ((w.foldl (processCell w y m fv) ([], [])).1).insertionSort
          (fun a b => a.row ≤ b.row) := by
      simp only [getEventBlocksForWeek, hfv]
    obtain ⟨hL, _, _, _⟩ := week_acc_inv w y m fv
    have hperm := List.perm_insertionSort
      (fun a b : EventBlock => a.row ≤ b.row)
      (w.foldl (processCell w y m fv) ([], [])).1
    rw [hres]
    refine ⟨?_, ?_, ?_⟩
    · exact (hperm.pairwise_iff fun h => blockCompat_symm h).mpr hL.pairwise
    · intro b hb r hr
      obtain ⟨b', hb', hprop⟩ := hL.closed b (hperm.mem_iff.mp hb) r hr
      exact ⟨b', hperm.mem_iff.mpr hb', hprop⟩
    · exact fun b hb => hL.scans b (hperm.mem_iff.mp hb)

/-- Completeness: an event of the store matching some column 0..6 of the
week yields a block carrying exactly its scan results. -/
lemma blocks_complete {w : List (Option Nat)} {y : Int} {m : Nat}
    {e : CalendarEvent} (he : e ∈ events) {i : Nat}
    (hm : matchesAt w y m e i = true) {s t : Nat} {iS iE : Bool}
    (hscan : scanEvent w y m e = some (s, iS, t, iE)) :
    ∃ r, (⟨e, s, t, r, iS, iE⟩ : EventBlock) ∈ getEventBlocksForWeek w y m := by
  have hcell : ∃ day, w.getD i none = some day := by
    rw [matchesAt] at hm
    rcases h : w.getD i none with _ | day
    · rw [h] at hm
      exact absurd hm (by simp)
    · exact ⟨day, rfl⟩
  obtain ⟨day, hday⟩ := hcell
  have hlt : i < w.length := by
    by_contra hcon
    rw [List.getD_eq_default _ _ (by omega)] at hday
    exact absurd hday (by simp)
  have hfv : ∃ fv, w.findSome? id = some fv := by
    rcases h : w.findSome? id with _ | fv
    · have hall := List.findSome?_eq_none_iff.mp h
      have hmem : (some day : Option Nat) ∈ w := by
        rw [List.getD_eq_getElem?_getD, List.getElem?_eq_getElem hlt] at hday
        simp only [Option.getD_some] at hday
        exact hday ▸ List.getElem_mem hlt
      exact absurd (hall _ hmem) (by simp)
    · exact ⟨fv, rfl⟩
  obtain ⟨fv, hfv⟩ := hfv
  obtain ⟨hL, hsub, hsup, hdone⟩ := week_acc_inv w y m fv
  have hkey : weekKey e fv ∈ (w.foldl (processCell w y m fv) ([], [])).2 :=
    hsup e he ⟨i, hlt, hm⟩
  obtain ⟨r, hr⟩ := hdone e he hkey s iS t iE hscan
  have hres : getEventBlocksForWeek w y m =
      ((w.foldl (processCell w y m fv) ([], [])).1).insertionSort
        (fun a b => a.row ≤ b.row) := by
    simp only [getEventBlocksForWeek, hfv]
  rw [hres]
  exact ⟨r, (List.perm_insertionSort _ _).mem_iff.mpr hr⟩

/-! ### Counting rows: the interval chromatic number -/

lemma le_foldr_max {l : List Nat} {x : Nat} (h : x ∈ l) : x ≤ l.foldr max 0 := by
  induction l with
  | nil => simp at h
  | cons a t ih =>
    rcases List.mem_cons.mp h with rfl | h
    · exact Nat.le_max_left _ _
    · exact Nat.le_trans (ih h) (Nat.le_max_right _ _)

lemma foldr_max_le {l : List Nat} {k : Nat} (h : ∀ x ∈ l, x ≤ k) :
    l.foldr max 0 ≤ k := by
  induction l with
  | nil => simp
  | cons a t ih =>
    simp only [List.foldr_cons]
    exact Nat.max_le.mpr ⟨h a (List.mem_cons_self _ _),
      ih fun x hx => h x (List.mem_cons_of_mem _ hx)⟩

/-- Blocks covering a common column pairwise overlap, so by the
collision-freedom invariant each column is covered at most
`distinctRowCount` times. -/
lemma columnCount_le_distinct {L : List EventBlock}
    (hpw : L.Pairwise BlockCompat) (c : Nat) :
    columnCount L c ≤ distinctRowCount L := by
  set p : EventBlock → Bool :=
    fun b => decide (b.startCol ≤ c) && decide (c ≤ b.endCol) with hp
  have hsub : List.Sublist (L.filter p) L := List.filter_sublist L
  have hpwF : (L.filter p).Pairwise BlockCompat := hpw.sublist hsub
  have hpw' : (L.filter p).Pairwise fun b1 b2 => b1.row ≠ b2.row := by
    refine hpwF.imp_of_mem ?_
    intro b1 b2 h1 h2 hcompat
    have hc1 := (List.mem_filter.mp h1).2
    have hc2 := (List.mem_filter.mp h2).2
    simp only [hp, Bool.and_eq_true, decide_eq_true_eq] at hc1 hc2
    exact hcompat (overlapsCols_iff.mpr ⟨by omega, by omega⟩)
  have hnd : ((L.filter p).map fun b => b.row).Nodup :=
    List.pairwise_map.mpr hpw'
  have hcsub : ((L.filter p).map fun b => b.row).toFinset ⊆ rowSet L := by
    intro x hx
    exact List.mem_toFinset.mpr
      ((hsub.map fun b => b.row).subset (List.mem_toFinset.mp hx))
  calc columnCount L c = ((L.filter p).map fun b => b.row).length := by
        simp [columnCount, hp, List.length_map]
    _ = ((L.filter p).map fun b => b.row).toFinset.card :=
        (List.toFinset_card_of_nodup hnd).symm
    _ ≤ (rowSet L).card := Finset.card_le_card hcsub
    _ = distinctRowCount L := rfl

/-- The abstract optimality fact behind the row packing: for a
collision-free block list whose rows are downward closed along start
columns and whose columns lie in 0..6, the number of distinct rows equals
the maximal number of blocks covering a single column. -/
lemma distinct_eq_maxColumnCount {L : List EventBlock}
    (hpw : L.Pairwise BlockCompat)
    (hcl : ∀ b ∈ L, ∀ r < b.row,
      ∃ b' ∈ L, b'.row = r ∧ b'.startCol ≤ b.startCol ∧ b.startCol ≤ b'.endCol)
    (hbd : ∀ b ∈ L, b.startCol ≤ b.endCol ∧ b.endCol < 7) :
    distinctRowCount L = maxColumnCount L := by
  by_cases hL : L = []
  · subst hL
    rfl
  · have hne : (rowSet L).Nonempty := by
      rcases List.exists_mem_of_ne_nil L hL with ⟨b0, hb0⟩
      exact ⟨b0.row, List.mem_toFinset.mpr (List.mem_map_of_mem _ hb0)⟩
    obtain ⟨bM, hbM, hbMrow⟩ : ∃ b ∈ L, b.row = (rowSet L).max' hne := by
      obtain ⟨b, hb, hbr⟩ :=
        List.mem_map.mp (List.mem_toFinset.mp (Finset.max'_mem (rowSet L) hne))
      exact ⟨b, hb, hbr⟩
    set M := (rowSet L).max' hne with hM
    have hrange : rowSet L = Finset.range (M + 1) := by
      apply Finset.ext
      intro r
      simp only [Finset.mem_range]
      constructor
      · intro hr
        have := Finset.le_max' (rowSet L) r hr
        omega
      · intro hr
        rcases Nat.lt_succ_iff_lt_or_eq.mp hr with hlt | rfl
        · obtain ⟨b', hb', hrow, _, _⟩ := hcl bM hbM r (by omega)
          exact List.mem_toFinset.mpr (hrow ▸ List.mem_map_of_mem _ hb')
        · exact List.mem_toFinset.mpr (hbMrow ▸ List.mem_map_of_mem _ hbM)
    have hcard : distinctRowCount L = M + 1 := by
      rw [distinctRowCount, hrange, Finset.card_range]
    obtain ⟨hbd1, hbd2⟩ := hbd bM hbM
    set c := bM.startCol with hc
    set p : EventBlock → Bool :=
      fun b => decide (b.startCol ≤ c) && decide (c ≤ b.endCol) with hp
    have hsubS : Finset.range (M + 1) ⊆
        ((L.filter p).map fun b => b.row).toFinset := by
      intro r hr
      rw [Finset.mem_range] at hr
      rcases Nat.lt_succ_iff_lt_or_eq.mp hr with hlt | rfl
      · obtain ⟨b', hb', hrow, hsle, hele⟩ := hcl bM hbM r (by omega)
        refine List.mem_toFinset.mpr (hrow ▸ List.mem_map_of_mem _ ?_)
        refine List.mem_filter.mpr ⟨hb', ?_⟩
        simp only [hp, Bool.and_eq_true, decide_eq_true_eq]
        exact ⟨hsle, hele⟩
      · refine List.mem_toFinset.mpr (hbMrow ▸ List.mem_map_of_mem _ ?_)
        refine List.mem_filter.mpr ⟨hbM, ?_⟩
        simp only [hp, Bool.and_eq_true, decide_eq_true_eq]
        exact ⟨Nat.le_refl c, by omega⟩
    have hlow : M + 1 ≤ columnCount L c := by
      calc M + 1 = (Finset.range (M + 1)).card := (Finset.card_range _).symm
        _ ≤ ((L.filter p).map fun b => b.row).toFinset.card :=
            Finset.card_le_card hsubS
        _ ≤ ((L.filter p).map fun b => b.row).length :=
            List.toFinset_card_le _
        _ = columnCount L c := by simp [columnCount, hp, List.length_map]
    have hcmem : columnCount L c ∈ (List.range 7).map (columnCount L) :=
      List.mem_map_of_mem _ (List.mem_range.mpr (by omega))
    apply Nat.le_antisymm
    · rw [hcard]
      exact Nat.le_trans hlow (le_foldr_max hcmem)
    · refine foldr_max_le ?_
      intro x hx
      obtain ⟨cc, _, rfl⟩ := List.mem_map.mp hx
      exact columnCount_le_distinct hpw cc

/-! ### The claims -/

/-- C1: for every week (in particular every length-7 list of optional day
numbers), every year and month, any two distinct blocks returned by
`getEventBlocksForWeek` whose column ranges `[startCol, endCol]`
intersect are assigned different row values. -/
theorem claim_C1_overlapping_blocks_distinct_rows
    (weekDays : List (Option Nat)) (year : Int) (month : Nat) :
    (getEventBlocksForWeek weekDays year month).Pairwise
      fun b1 b2 => b2.startCol ≤ b1.endCol ∧ b1.startCol ≤ b2.endCol →
        b1.row ≠ b2.row := by
  refine (blocks_inv weekDays year month).1.imp ?_
  intro b1 b2 h hint
  exact h (overlapsCols_iff.mpr hint)

/-- C2: for every week, year and month, the number of distinct row values
among the blocks returned by `getEventBlocksForWeek` equals the maximum,
over columns 0..6, of the number of blocks whose column range contains
that column (the interval-graph chromatic number). -/
theorem claim_C2_row_count_is_chromatic_number
    (weekDays : List (Option Nat)) (year : Int) (month : Nat) :
    distinctRowCount (getEventBlocksForWeek weekDays year month) =
      maxColumnCount (getEventBlocksForWeek weekDays year month) := by
  obtain ⟨hpw, hcl, hsc⟩ := blocks_inv weekDays year month
  refine distinct_eq_maxColumnCount hpw hcl ?_
  intro b hb
  obtain ⟨_, hscan⟩ := hsc b hb
  have hspec := scanEvent_spec weekDays year month b.event
  rw [hscan] at hspec
  obtain ⟨h1, h2, _⟩ := hspec
  exact ⟨h1, h2⟩

/-- C9: for every week, year and month, the list returned by
`getEventBlocksForWeek` is sorted in nondecreasing order of `row` (the
final `blocks.sort((a, b) => a.row - b.row)`). -/
theorem claim_C9_blocks_sorted_by_row
    (weekDays : List (Option Nat)) (year : Int) (month : Nat) :
    (getEventBlocksForWeek weekDays year month).Pairwise
      fun b1 b2 => b1.row ≤ b2.row := by
  rcases hfv : weekDays.findSome? id with _ | fv
  · have hres : getEventBlocksForWeek weekDays year month = [] := by
      simp only [getEventBlocksForWeek, hfv]
    rw [hres]
    exact List.Pairwise.nil
  · have hres : getEventBlocksForWeek weekDays year month =
        ((weekDays.foldl (processCell weekDays year month fv) ([], [])).1).insertionSort
          (fun a b => a.row ≤ b.row) := by
      simp only [getEventBlocksForWeek, hfv]
    rw [hres]
    haveI : IsTotal EventBlock fun a b => a.row ≤ b.row :=
      ⟨fun a b => Nat.le_total a.row b.row⟩
    haveI : IsTrans EventBlock fun a b => a.row ≤ b.row :=
      ⟨fun a b c => Nat.le_trans⟩
    exact List.sorted_insertionSort _ _

/-- C5: membership in `getEventsForDate` is exactly the lexicographic
containment `start ≤ key ≤ end` for events of the store, and the result
keeps the insertion order of `events` (it is a filter: a sublist, no
sort). -/
theorem claim_C5_getEventsForDate_spec (year : Int) (month day : Nat) :
    List.Sublist (getEventsForDate year month day) events ∧
      ∀ e, e ∈ getEventsForDate year month day ↔
        e ∈ events ∧ e.start ≤ formatDateString year month day ∧
          formatDateString year month day ≤ e.endK := by
  constructor
  · exact List.filter_sublist _
  · intro e
    rw [mem_getEventsForDate, dateInRange_iff]

/-- C7: `getSingleDayEventsForDate` returns exactly the single-day events
(`start = end`) containing the date, in insertion order of `events`, with
no row-assignment logic involved; in particular any two distinct
single-day events on the same date both appear. -/
theorem claim_C7_single_day_events_spec (year : Int) (month day : Nat) :
    List.Sublist (getSingleDayEventsForDate year month day) events ∧
      ∀ e, e ∈ getSingleDayEventsForDate year month day ↔
        e ∈ events ∧ e.start = e.endK ∧
          e.start ≤ formatDateString year month day ∧
          formatDateString year month day ≤ e.endK := by
  constructor
  · exact (List.filter_sublist _).trans (List.filter_sublist _)
  · intro e
    rw [getSingleDayEventsForDate, List.mem_filter, mem_getEventsForDate,
      dateInRange_iff]
    simp only [beq_iff_eq]
    tauto

/-- C10: `getEventPosition` never checks that the date lies in the
event's span: any multi-day event gives "middle" on every date whose key
is neither boundary (even far outside the span), and any single-day event
gives "single" on every date whatsoever. -/
theorem claim_C10_position_ignores_range :
    (∀ (e : CalendarEvent) (year : Int) (month day : Nat),
        e.start ≠ e.endK → formatDateString year month day ≠ e.start →
        formatDateString year month day ≠ e.endK →
        getEventPosition e year month day = "middle") ∧
      ∀ (e : CalendarEvent) (year : Int) (month day : Nat),
        e.start = e.endK → getEventPosition e year month day = "single" := by
  constructor
  · intro e y m d h1 h2 h3
    rw [getEventPosition, if_neg (by simpa using h1), if_neg (by simpa using h2),
      if_neg (by simpa using h3)]
  · intro e y m d h1
    rw [getEventPosition, if_pos (by simpa using h1)]

/-- Witness for C10 at concrete inputs: a date strictly before a
multi-day event's span is classified "middle", and a single-day event is
"single" at an unrelated date. -/
theorem claim_C10_witness :
    getEventPosition
        (⟨"w", "W", "2026-01-02", "2026-01-05", "", ""⟩ : CalendarEvent)
        2020 0 1 = "middle" ∧
      getEventPosition
        (⟨"v", "V", "2026-01-02", "2026-01-02", "", ""⟩ : CalendarEvent)
        2030 0 1 = "single" :=
  ⟨claim_C10_position_ignores_range.1 _ 2020 0 1 (by decide) (by decide)
      (by decide),
    claim_C10_position_ignores_range.2 _ 2030 0 1 (by decide)⟩

/-- C4 (evidence for the missing load-time validation): an event record
with `start > end` is accepted by the store's filter pipeline without any
failure, and silently matches no date at all. -/
theorem claim_C4_no_load_validation :
    (("2026-06-30" : String) > "2026-03-01") ∧
      ∀ (year : Int) (month day : Nat),
        ((events ++
              [(⟨"bad", "Bad", "2026-06-30", "2026-03-01", "", ""⟩ :
                CalendarEvent)]).filter
            fun e => dateInRange e (formatDateString year month day)).count
          (⟨"bad", "Bad", "2026-06-30", "2026-03-01", "", ""⟩ :
            CalendarEvent) = 0 := by
  have hnle : ¬ (("2026-06-30" : String) ≤ "2026-03-01") := by
    intro hle
    rw [← strLe_iff_le] at hle
    rw [show strLe "2026-06-30" "2026-03-01" = false from rfl] at hle
    exact absurd hle (by simp)
  refine ⟨lt_iff_not_le.mpr hnle, ?_⟩
  intro y m d
  rw [List.count_eq_zero]
  intro hmem
  have h := (List.mem_filter.mp hmem).2
  rw [dateInRange_iff] at h
  exact absurd (le_trans h.1 h.2) hnle

/-- C3: the flat day-cell sequence of `CalendarMonth` is exactly `k`
leading blanks — `k = 6` when day 1 falls on Sunday (raw weekday 0) and
`k = raw - 1` otherwise — followed by the days `1..daysInMonth` each once
in strictly increasing order, followed by trailing blanks, with total
length a multiple of 7. -/
theorem claim_C3_month_grid_shape (year : Int) (month : Nat) :
    ∃ trail : Nat,
      monthDays year month =
        List.replicate
            (if getDay year month 1 = 0 then 6 else getDay year month 1 - 1)
            none ++
          (List.range' 1 (daysInMonth year month)).map some ++
          List.replicate trail none ∧
        (monthDays year month).length % 7 = 0 := by
  refine ⟨(7 - ((if getDay year month 1 = 0 then 6 else getDay year month 1 - 1)
      + daysInMonth year month) % 7) % 7, ?_, ?_⟩
  · simp only [monthDays, List.length_append, List.length_replicate,
      List.length_map, List.length_range', List.append_assoc]
  · simp only [monthDays, List.length_append, List.length_replicate,
      List.length_map, List.length_range']
    omega

/-- C6: an event of the store matching at least one non-blank cell of the
week yields a block whose `startCol` is the first matching column,
`endCol` the last one, with `isStart`/`isEnd` true exactly when the date
key at that column is the event's `start`/`end` key; and every block the
week produces for this event carries exactly these fields. -/
theorem claim_C6_block_span_fields (weekDays : List (Option Nat)) (year : Int)
    (month : Nat) (e : CalendarEvent) (he : e ∈ events)
    (hmatch : ∃ i, i < 7 ∧ matchesAt weekDays year month e i = true) :
    (∃ b ∈ getEventBlocksForWeek weekDays year month, b.event = e) ∧
      ∀ b ∈ getEventBlocksForWeek weekDays year month, b.event = e →
        matchesAt weekDays year month e b.startCol = true ∧
        (∀ i, i < b.startCol → matchesAt weekDays year month e i = false) ∧
        matchesAt weekDays year month e b.endCol = true ∧
        (∀ i, b.endCol < i → i < 7 →
          matchesAt weekDays year month e i = false) ∧
        (b.isStart = true ↔
          cellKeyAt weekDays year month b.startCol = some e.start) ∧
        (b.isEnd = true ↔
          cellKeyAt weekDays year month b.endCol = some e.endK) := by
  obtain ⟨i, hi7, hm⟩ := hmatch
  obtain ⟨s, iS, t, iE, hscan⟩ := scanEvent_isSome hi7 hm
  constructor
  · obtain ⟨r, hr⟩ := blocks_complete he hm hscan
    exact ⟨⟨e, s, t, r, iS, iE⟩, hr, rfl⟩
  · intro b hb hbe
    obtain ⟨_, hscanb⟩ := (blocks_inv weekDays year month).2.2 b hb
    rw [hbe] at hscanb
    have hspec := scanEvent_spec weekDays year month e
    rw [hscanb] at hspec
    obtain ⟨hs1, hs2, hs3, hs4, hs5, hs6, ⟨k1, hk1, hf1⟩, ⟨k2, hk2, hf2⟩⟩ :=
      hspec
    refine ⟨hs3, hs5, hs4, hs6, ?_, ?_⟩
    · constructor
      · intro hbs
        rw [hf1] at hbs
        have hk : k1 = e.start := by simpa using hbs
        rw [hk1, hk]
      · intro hck
        rw [hk1] at hck
        have hk : k1 = e.start := by simpa using hck
        rw [hf1, hk]
        simp
    · constructor
      · intro hbs
        rw [hf2] at hbs
        have hk : k2 = e.endK := by simpa using hbs
        rw [hk2, hk]
      · intro hck
        rw [hk2] at hck
        have hk : k2 = e.endK := by simpa using hck
        rw [hf2, hk]
        simp

/-- Witness for C6: in the October 2026 week holding days 16..18, the
single-day event of October 17 produces a block. -/
theorem claim_C6_witness :
    ∃ b ∈ getEventBlocksForWeek
        [some 16, some 17, some 18, none, none, none, none] 2026 9,
      b.event = (⟨"first-ultra", "First 100km Ultra", "2026-10-17",
        "2026-10-17", "45 93% 47%", "**The Main Event**"⟩ : CalendarEvent) :=
  (claim_C6_block_span_fields _ 2026 9 _ (by decide)
    ⟨1, by decide, by decide⟩).1

/-- The `misogi-challenge` event of the store (events.ts lines 28-54). -/
def misogiChallenge : CalendarEvent :=
  ⟨"misogi-challenge", "Misogi Challenge", "2026-03-01", "2026-06-30",
    "0 72% 50%", "**100km Monthly Running Target**"⟩

/-- C8: the event spanning 2026-03-01..2026-06-30 produces at least one
block in every week of the March, April, May and June 2026 grids (each of
which has a non-blank day); its `isStart` flag is true exactly in the
March week containing day 1, its `isEnd` flag exactly in the June week
containing day 30, and both flags are false in all weeks in between. -/
theorem claim_C8_misogi_spans :
    ([2, 3, 4, 5].all fun month =>
      (monthWeeks 2026 month).all fun wk =>
        decide (1 ≤ ((getEventBlocksForWeek wk 2026 month).filter
          fun b => b.event == misogiChallenge).length) &&
          ((getEventBlocksForWeek wk 2026 month).filter
              fun b => b.event == misogiChallenge).all fun b =>
            (b.isStart == (month == 2 && wk.contains (some 1))) &&
              (b.isEnd == (month == 5 && wk.contains (some 30)))) = true := by
  decide

end YearFocus
